import Mathlib

/-!
Shallow embedding of `truth.py` (Hebrew word analysis utility) and proofs
about it.  Strings are modelled as `List Char`; Python `int` is `Int`
(arbitrary precision); dictionaries are association lists.

Modelling notes, applying throughout:
* `str.strip()` is modelled as removal of leading/trailing ASCII whitespace
  (`pyStrip`).  The program only distinguishes whitespace from non-whitespace
  here, and no mapped character is whitespace.
* `str.isdigit` / `str.isalpha` / `str.upper` are modelled on the ASCII range
  (plus, for `isalpha`, the mapped Hebrew letters are caught by the dictionary
  branch before `isalpha` is ever consulted), which covers every character
  class the program treats specially.
* `int(math.sqrt(n))` is modelled as the exact integer square root
  `Nat.sqrt`; the float computation is exact on the magnitudes this program
  produces.
-/

namespace Truth

/-- The `ALPHABET_HEBREU` dictionary of `truth.py`: 22 base letters with
values 1–22, plus the five final forms sharing their base letter's value. -/
def ALPHABET_HEBREU : List (Char × Nat) :=
  [('א', 1), ('ב', 2), ('ג', 3), ('ד', 4), ('ה', 5), ('ו', 6), ('ז', 7),
   ('ח', 8), ('ט', 9), ('י', 10), ('כ', 11), ('ל', 12), ('מ', 13), ('נ', 14),
   ('ס', 15), ('ע', 16), ('פ', 17), ('צ', 18), ('ק', 19), ('ר', 20),
   ('ש', 21), ('ת', 22),
   ('ך', 11), ('ם', 13), ('ן', 14), ('ף', 17), ('ץ', 18)]

/-- The `ALPHABET_INVERSE` dictionary of `truth.py`: values 1–22 to the
canonical (non-final) letters. -/
def ALPHABET_INVERSE : List (Nat × Char) :=
  [(1, 'א'), (2, 'ב'), (3, 'ג'), (4, 'ד'), (5, 'ה'), (6, 'ו'), (7, 'ז'),
   (8, 'ח'), (9, 'ט'), (10, 'י'), (11, 'כ'), (12, 'ל'), (13, 'מ'), (14, 'נ'),
   (15, 'ס'), (16, 'ע'), (17, 'פ'), (18, 'צ'), (19, 'ק'), (20, 'ר'),
   (21, 'ש'), (22, 'ת')]

/-- Association-list lookup, modelling Python dict access / `in` tests. -/
def dictGet {α β : Type} [DecidableEq α] : List (α × β) → α → Option β
  | [], _ => none
  | (k, v) :: rest, a => if a = k then some v else dictGet rest a

/-- `ALPHABET_HEBREU.get(c)`: `some v` iff `c in ALPHABET_HEBREU`. -/
def hebValue (c : Char) : Option Nat := dictGet ALPHABET_HEBREU c

/-- `ALPHABET_INVERSE[n]` (total on 1–22, `none` outside). -/
def invLetter (n : Nat) : Option Char := dictGet ALPHABET_INVERSE n

/-- ASCII whitespace, the character class removed by `str.strip()`. -/
def pyIsSpace (c : Char) : Bool :=
  c = ' ' || c = '\t' || c = '\n' || c = '\x0b' || c = '\x0c' || c = '\x0d'

/-- `str.strip()`: drop leading and trailing whitespace. -/
def pyStrip (s : List Char) : List Char :=
  ((s.dropWhile pyIsSpace).reverse.dropWhile pyIsSpace).reverse

/-- The decimal digit character for `d < 10`. -/
def digitChar (d : Nat) : Char := Char.ofNat ('0'.toNat + d)

/-- Fuel-driven decimal rendering helper; fuel `n + 1` always suffices. -/
def natToDecAux : Nat → Nat → List Char → List Char
  | 0, _, acc => acc
  | fuel + 1, n, acc =>
    if n < 10 then digitChar n :: acc
    else natToDecAux fuel (n / 10) (digitChar (n % 10) :: acc)

/-- Python `str(n)` for a non-negative integer. -/
def natToDec (n : Nat) : List Char := natToDecAux (n + 1) n []

/-- Python `str(n)` for an arbitrary integer (minus sign when negative). -/
def intToStr (n : Int) : List Char :=
  if n < 0 then '-' :: natToDec n.natAbs else natToDec n.toNat

/-- Python `'.'.join(tokens)`. -/
def joinDots : List (List Char) → List Char
  | [] => []
  | [t] => t
  | t :: ts => t ++ '.' :: joinDots ts

/-- Python `s.split('.')`: splitting the empty string gives `[""]`. -/
def splitDots : List Char → List (List Char)
  | [] => [[]]
  | c :: rest =>
    if c = '.' then [] :: splitDots rest
    else
      match splitDots rest with
      | [] => [[c]]
      | t :: ts => (c :: t) :: ts

/-- The per-character branch of `encoder_mot_hebreu`: Hebrew dictionary
first, then `isalpha` with `ord(upper) - ord('A') + 1`, else skipped. -/
def encodeChar (c : Char) : Option Nat :=
  match hebValue c with
  | some n => some n
  | none => if c.isAlpha then some (c.toUpper.toNat - 'A'.toNat + 1) else none

/-- `encoder_mot_hebreu`: strip, encode each character, join with dots. -/
def encoder_mot_hebreu (mot : List Char) : List Char :=
  joinDots (((pyStrip mot).filterMap encodeChar).map natToDec)

/-- Python `tok.isdigit()`: non-empty and all decimal digits. -/
def pyIsDigitTok (t : List Char) : Bool := !t.isEmpty && t.all Char.isDigit

/-- Python `int(tok)` on a digit string. -/
def tokVal (t : List Char) : Nat :=
  t.foldl (fun acc c => acc * 10 + (c.toNat - '0'.toNat)) 0

/-- The per-token branch of `decoder_sequence_hebreu`: digits only, Hebrew
range 1–22 first, then Latin range 1–26, else skipped. -/
def decodeTok (t : List Char) : Option Char :=
  if pyIsDigitTok t then
    if 1 ≤ tokVal t ∧ tokVal t ≤ 22 then invLetter (tokVal t)
    else if 1 ≤ tokVal t ∧ tokVal t ≤ 26 then
      some (Char.ofNat (tokVal t + 'A'.toNat - 1))
    else none
  else none

/-- `decoder_sequence_hebreu`: split on dots, decode each token, concatenate. -/
def decoder_sequence_hebreu (s : List Char) : List Char :=
  (splitDots s).filterMap decodeTok

/-- `mot_vers_nombre`: strip, then accumulate the Hebrew dictionary value of
each mapped character into `total` (starting from 0). -/
def mot_vers_nombre (mot : List Char) : Int :=
  ((pyStrip mot).filterMap hebValue).foldl (fun acc (n : Nat) => acc + (n : Int)) 0

/-- `est_palindrome_hebreu`: strip, keep the Hebrew-mapped characters,
compare with the reverse. -/
def est_palindrome_hebreu (mot : List Char) : Bool :=
  let nettoye := (pyStrip mot).filter fun c => (hebValue c).isSome
  nettoye == nettoye.reverse

/-- Sort key used by `lettres_uniques_hebreu` (`ALPHABET_HEBREU[x]`; the
default is never used since only mapped characters are sorted). -/
def hebKey (c : Char) : Nat := (hebValue c).getD 0

/-- Comparison relation of `sorted(..., key=lambda x: ALPHABET_HEBREU[x])`. -/
def hebLe (a b : Char) : Prop := hebKey a ≤ hebKey b

instance : DecidableRel hebLe := fun a b => inferInstanceAs (Decidable (hebKey a ≤ hebKey b))

instance : IsTotal Char hebLe := ⟨fun a b => Nat.le_total (hebKey a) (hebKey b)⟩

instance : IsTrans Char hebLe := ⟨fun _ _ _ h h' => Nat.le_trans h h'⟩

/-- `lettres_uniques_hebreu`: the distinct Hebrew-mapped characters of the
word, sorted by their numeric value.  Python's `set` iteration order is
unspecified, so deduplication order (which only affects ties between a base
letter and its final form) is a modelling choice; the sort is stable. -/
def lettres_uniques_hebreu (mot : List Char) : List Char :=
  let lettres := mot.filter fun c => (hebValue c).isSome
  List.insertionSort hebLe lettres.dedup

/-- The inner `while n % d == 0` loop of `factorize`: returns the list of
copies of `d` appended and the reduced value of `n`.  The guards `2 ≤ d` and
`0 < n`, needed for termination, never fail on the states the outer loop
reaches (`d` starts at 2 and only grows; `n` stays positive). -/
def pullOut (d n : Nat) : List Nat × Nat :=
  if h : 2 ≤ d ∧ 0 < n ∧ n % d = 0 then
    (d :: (pullOut d (n / d)).1, (pullOut d (n / d)).2)
  else ([], n)
termination_by n
decreasing_by
  exact Nat.div_lt_self h.2.1 (Nat.lt_of_lt_of_le Nat.one_lt_two h.1)

/-- The reduced value returned by the inner loop never exceeds its input;
needed to define the outer loop. -/
theorem pullOut_snd_le (d n : Nat) : (pullOut d n).2 ≤ n := by
  induction n using Nat.strong_induction_on with
  | _ n ih =>
    rw [pullOut]
    split
    · next h =>
      have hlt : n / d < n := Nat.div_lt_self h.2.1 (Nat.lt_of_lt_of_le Nat.one_lt_two h.1)
      exact Nat.le_trans (ih _ hlt) (Nat.le_of_lt hlt)
    · exact Nat.le_refl n

/-- The outer `while d * d <= n` loop of `factorize`, followed by the final
`if n > 1` append. -/
def factorAux (n d : Nat) : List Nat :=
  if h : d * d ≤ n then
    (pullOut d n).1 ++ factorAux (pullOut d n).2 (d + 1)
  else if 1 < n then [n] else []
termination_by n + 2 - d
decreasing_by
  have hle : (pullOut d n).2 ≤ n := pullOut_snd_le d n
  have hdn : d ≤ n + 1 := by
    rcases Nat.lt_or_ge d 2 with h2 | h2
    · omega
    · calc d ≤ d * d := Nat.le_mul_of_pos_left d (by omega)
      _ ≤ n := h
      _ ≤ n + 1 := Nat.le_succ n
  omega

/-- `factorize`: `[n]` for `n < 2`, trial division otherwise.  For `n ≥ 2`
the Python `int` arithmetic coincides with `Nat` arithmetic. -/
def factorize (n : Int) : List Int :=
  if n < 2 then [n] else (factorAux n.toNat 2).map Int.ofNat

/-- `is_prime`: `n < 2` is not prime; otherwise trial division over
`range(2, int(math.sqrt(n)) + 1)`. -/
def is_prime (n : Int) : Bool :=
  if n < 2 then false
  else (List.range' 2 (Nat.sqrt n.toNat + 1 - 2)).all fun i => n.toNat % i != 0

/-- The branch of `analyser_nombre` choosing the `square_root` field: the
field is NaN exactly when the `nombre >= 0` test fails. -/
def square_root_is_nan (n : Int) : Bool := if 0 ≤ n then false else true

/-- The routing test of `main` (after `strip`): the argument goes to
`decoder_sequence_hebreu` iff it contains a `'.'` and every dot-separated
token is all digits. -/
def mainRoutesToDecoder (arg : List Char) : Bool :=
  let entree := pyStrip arg
  entree.contains '.' && (splitDots entree).all pyIsDigitTok

/-- Specification-side token decoding, following the words of the claim: a
digits-only token with value in [1,22] becomes the canonical Hebrew letter
of that value; a digits-only token with value in [1,26] (Hebrew range
having priority) becomes `chr(value + ord('A') - 1)`; every other token is
skipped. -/
def decodeTokenClaim (t : List Char) : List Char :=
  if pyIsDigitTok t ∧ 1 ≤ tokVal t ∧ tokVal t ≤ 22 then
    (invLetter (tokVal t)).toList
  else if pyIsDigitTok t ∧ 1 ≤ tokVal t ∧ tokVal t ≤ 26 then
    [Char.ofNat (tokVal t + 'A'.toNat - 1)]
  else []

/-- Specification-side per-character encoding, following the words of the
claim: a mapped Hebrew letter gives its value, any other alphabetic
character gives `uppercase_codepoint - ord('A') + 1`, everything else is
skipped. -/
def encodeCharClaim (c : Char) : Option Nat :=
  if (hebValue c).isSome then hebValue c
  else if c.isAlpha then some (c.toUpper.toNat - 'A'.toNat + 1)
  else none

/-- The canonical form of a Hebrew letter: the letter of the inverse table
at the letter's value (so final forms are replaced by their base letter). -/
def canonicalOf (c : Char) : Char := ((hebValue c).bind invLetter).getD c

end Truth

namespace Truth

/-! ### Generic helper lemmas -/

theorem dictGet_mem {α β : Type} [DecidableEq α] :
    ∀ (l : List (α × β)) (a : α) (b : β), dictGet l a = some b → (a, b) ∈ l := by
  intro l
  induction l with
  | nil => intro a b h; simp [dictGet] at h
  | cons kv rest ih =>
    intro a b h
    obtain ⟨k, v⟩ := kv
    by_cases hak : a = k
    · subst hak
      simp [dictGet] at h
      simp [h]
    · simp [dictGet, hak] at h
      exact List.mem_cons_of_mem _ (ih a b h)

theorem filterMap_eq_join_map {α β : Type} (f : α → Option β) :
    ∀ l : List α, l.filterMap f = (l.map fun a => (f a).toList).join := by
  intro l
  induction l with
  | nil => rfl
  | cons a l ih => cases h : f a <;> simp [List.filterMap_cons, h, ih]

theorem filterMap_eq_map_of {α β : Type} (f : α → Option β) (g : α → β) :
    ∀ l : List α, (∀ a ∈ l, f a = some (g a)) → l.filterMap f = l.map g := by
  intro l
  induction l with
  | nil => intro _; rfl
  | cons a l ih =>
    intro h
    rw [List.filterMap_cons, h a (List.mem_cons_self a l), List.map_cons,
      ih fun x hx => h x (List.mem_cons_of_mem a hx)]

theorem filterMap_dropWhile {α β : Type} (p : α → Bool) (f : α → Option β)
    (hpf : ∀ a, p a = true → f a = none) :
    ∀ l : List α, (l.dropWhile p).filterMap f = l.filterMap f := by
  intro l
  induction l with
  | nil => rfl
  | cons a l ih =>
    by_cases hp : p a
    · rw [List.dropWhile_cons_of_pos hp, ih, List.filterMap_cons, hpf a hp]
    · rw [List.dropWhile_cons_of_neg hp]

theorem filterMap_rev {α β : Type} (f : α → Option β) :
    ∀ l : List α, l.reverse.filterMap f = (l.filterMap f).reverse := by
  intro l
  induction l with
  | nil => rfl
  | cons a l ih =>
    cases h : f a <;>
      simp [List.reverse_cons, List.filterMap_append, List.filterMap_cons, h, ih]

theorem filterMap_pyStrip {β : Type} (f : Char → Option β)
    (hf : ∀ c, pyIsSpace c = true → f c = none) (l : List Char) :
    (pyStrip l).filterMap f = l.filterMap f := by
  rw [pyStrip, filterMap_rev, filterMap_dropWhile _ _ hf, filterMap_rev,
    List.reverse_reverse, filterMap_dropWhile _ _ hf]

theorem filter_eq_filterMap {α : Type} (p : α → Bool) :
    ∀ l : List α, l.filter p = l.filterMap fun a => if p a then some a else none := by
  intro l
  induction l with
  | nil => rfl
  | cons a l ih =>
    by_cases hp : p a <;> simp [List.filter_cons, List.filterMap_cons, hp, ih]

theorem filter_pyStrip (p : Char → Bool)
    (hp : ∀ c, pyIsSpace c = true → p c = false) (l : List Char) :
    (pyStrip l).filter p = l.filter p := by
  rw [filter_eq_filterMap, filter_eq_filterMap,
    filterMap_pyStrip _ fun c hc => by simp [hp c hc]]

theorem pyIsSpace_cases {c : Char} (h : pyIsSpace c = true) :
    c = ' ' ∨ c = '\t' ∨ c = '\n' ∨ c = '\x0b' ∨ c = '\x0c' ∨ c = '\x0d' := by
  simp [pyIsSpace] at h
  tauto

theorem hebValue_space {c : Char} (h : pyIsSpace c = true) : hebValue c = none := by
  rcases pyIsSpace_cases h with h' | h' | h' | h' | h' | h' <;> subst h' <;> decide

theorem encodeChar_space {c : Char} (h : pyIsSpace c = true) : encodeChar c = none := by
  rcases pyIsSpace_cases h with h' | h' | h' | h' | h' | h' <;> subst h' <;> decide

/-! ### C1, C2, C4 -/

theorem decodeTok_toList (t : List Char) : (decodeTok t).toList = decodeTokenClaim t := by
  rw [decodeTok, decodeTokenClaim]
  split_ifs <;> simp_all

/-- C1: the decoder handles each dot-separated token independently; a
digits-only token with value 1–22 becomes the canonical Hebrew letter of
that value, a digits-only token with value 23–26 (more precisely, in 1–26
but not matching the Hebrew range, which has priority) becomes the Latin
letter `chr(v + ord('A') - 1)`, every other token is skipped, and the
output is the concatenation of the decoded letters in token order. -/
theorem C1_decoder_tokenwise (s : List Char) :
    decoder_sequence_hebreu s = ((splitDots s).map decodeTokenClaim).join := by
  rw [decoder_sequence_hebreu, filterMap_eq_join_map]
  simp [decodeTok_toList]

theorem encodeChar_eq_claim : encodeChar = encodeCharClaim := by
  funext c
  rw [encodeChar, encodeCharClaim]
  cases h : hebValue c <;> simp [h]

/-- C2: the encoder emits, in original character order, the Hebrew value of
each mapped Hebrew letter, `uppercase_codepoint - ord('A') + 1` for each
other alphabetic character, skips every other character silently, joins the
values with dots, and yields the empty string when no character is
encodable. -/
theorem C2_encoder_spec (mot : List Char) :
    encoder_mot_hebreu mot = joinDots ((mot.filterMap encodeCharClaim).map natToDec) ∧
      (mot.filterMap encodeCharClaim = [] → encoder_mot_hebreu mot = []) := by
  have h : encoder_mot_hebreu mot = joinDots ((mot.filterMap encodeCharClaim).map natToDec) := by
    rw [encoder_mot_hebreu, filterMap_pyStrip _ fun c hc => encodeChar_space hc,
      encodeChar_eq_claim]
  refine ⟨h, fun hnil => ?_⟩
  rw [h, hnil]
  rfl

theorem foldl_intAdd :
    ∀ (l : List Nat) (a : Int),
      l.foldl (fun acc (n : Nat) => acc + (n : Int)) a = a + (l.map fun n : Nat => (n : Int)).sum := by
  intro l
  induction l with
  | nil => intro a; simp
  | cons n l ih => intro a; simp [ih, add_assoc]

theorem sum_filterMap_heb :
    ∀ l : List Char,
      ((l.filterMap hebValue).map fun n : Nat => (n : Int)).sum =
        (l.map fun c => (((hebValue c).getD 0 : Nat) : Int)).sum := by
  intro l
  induction l with
  | nil => rfl
  | cons c l ih => cases h : hebValue c <;> simp [List.filterMap_cons, h, ih]

theorem digitChar_isDigit {d : Nat} (h : d < 10) : (digitChar d).isDigit = true := by
  interval_cases d <;> decide

theorem natToDecAux_digits :
    ∀ (fuel n : Nat) (acc : List Char), (∀ c ∈ acc, c.isDigit = true) →
      ∀ c ∈ natToDecAux fuel n acc, c.isDigit = true := by
  intro fuel
  induction fuel with
  | zero => intro n acc hacc; exact hacc
  | succ fuel ih =>
    intro n acc hacc c hc
    rw [natToDecAux] at hc
    by_cases h10 : n < 10
    · rw [if_pos h10] at hc
      rcases List.mem_cons.mp hc with h | h
      · subst h; exact digitChar_isDigit h10
      · exact hacc c h
    · rw [if_neg h10] at hc
      refine ih (n / 10) _ ?_ c hc
      intro x hx
      rcases List.mem_cons.mp hx with h | h
      · subst h; exact digitChar_isDigit (Nat.mod_lt n (by omega))
      · exact hacc x h

theorem natToDec_digits {n : Nat} : ∀ c ∈ natToDec n, c.isDigit = true :=
  natToDecAux_digits (n + 1) n [] (by intro c hc; simp at hc)

theorem natToDec_no_dot {n : Nat} : '.' ∉ natToDec n := by
  intro hmem
  have := natToDec_digits '.' hmem
  simp at this

theorem dropWhile_eq_self {α : Type} (p : α → Bool) :
    ∀ l : List α, (∀ c ∈ l, p c = false) → l.dropWhile p = l := by
  intro l
  induction l with
  | nil => intro _; rfl
  | cons a l _ =>
    intro h
    exact List.dropWhile_cons_of_neg (by simp [h a (List.mem_cons_self a l)])

theorem pyStrip_eq_self {l : List Char} (h : ∀ c ∈ l, pyIsSpace c = false) :
    pyStrip l = l := by
  rw [pyStrip, dropWhile_eq_self _ l h, dropWhile_eq_self, List.reverse_reverse]
  intro c hc
  exact h c (List.mem_reverse.mp hc)

theorem splitDots_append_dot {t : List Char} (ht : '.' ∉ t) (r : List Char) :
    splitDots (t ++ '.' :: r) = t :: splitDots r := by
  induction t with
  | nil => simp [splitDots]
  | cons c t ih =>
    have hc : ¬c = '.' := fun h => ht (h ▸ List.mem_cons_self c t)
    have ht' : '.' ∉ t := fun h => ht (List.mem_cons_of_mem c h)
    rw [List.cons_append, splitDots, if_neg hc, ih ht']

theorem splitDots_no_dot {t : List Char} (ht : '.' ∉ t) : splitDots t = [t] := by
  induction t with
  | nil => rfl
  | cons c t ih =>
    have hc : ¬c = '.' := fun h => ht (h ▸ List.mem_cons_self c t)
    have ht' : '.' ∉ t := fun h => ht (List.mem_cons_of_mem c h)
    rw [splitDots, if_neg hc, ih ht']

theorem splitDots_joinDots :
    ∀ ts : List (List Char), ts ≠ [] → (∀ t ∈ ts, '.' ∉ t) →
      splitDots (joinDots ts) = ts := by
  intro ts
  induction ts with
  | nil => intro h; exact absurd rfl h
  | cons t ts ih =>
    intro _ hdot
    cases ts with
    | nil => exact splitDots_no_dot (hdot t (List.mem_cons_self t []))
    | cons t' ts' =>
      have hjoin : joinDots (t :: t' :: ts') = t ++ '.' :: joinDots (t' :: ts') := rfl
      rw [hjoin, splitDots_append_dot (hdot t (List.mem_cons_self t _)),
        ih (fun h => List.noConfusion h) fun x hx => hdot x (List.mem_cons_of_mem t hx)]

theorem alphabet_entries :
    ∀ p ∈ ALPHABET_HEBREU, 1 ≤ p.2 ∧ p.2 ≤ 22 ∧ pyIsSpace p.1 = false := by
  decide

theorem hebValue_bounds {c : Char} {n : Nat} (h : hebValue c = some n) :
    1 ≤ n ∧ n ≤ 22 ∧ pyIsSpace c = false := by
  have := alphabet_entries (c, n) (dictGet_mem _ _ _ h)
  exact this

theorem decodeTok_natToDec {n : Nat} (h1 : 1 ≤ n) (h2 : n ≤ 22) :
    decodeTok (natToDec n) = invLetter n ∧ (invLetter n).isSome = true := by
  interval_cases n <;> exact ⟨by decide, by decide⟩

/-- C3 (amended): for a word made of mapped Hebrew letters, decoding the
encoded sequence reconstructs the word with every letter replaced by its
canonical form — final forms come back as the base letter, so the word
itself is recovered exactly when it contains no final form. -/
theorem C3_roundtrip_canonical (w : List Char)
    (hw : ∀ c ∈ w, (hebValue c).isSome = true) :
    decoder_sequence_hebreu (encoder_mot_hebreu w) = w.map canonicalOf ∧
      ((∀ c ∈ w, canonicalOf c = c) →
        decoder_sequence_hebreu (encoder_mot_hebreu w) = w) := by
  have hmain : decoder_sequence_hebreu (encoder_mot_hebreu w) = w.map canonicalOf := by
    cases w with
    | nil => rfl
    | cons c0 w0 =>
      set w' : List Char := c0 :: w0 with hw'
      have hstrip : pyStrip w' = w' := by
        refine pyStrip_eq_self fun c hc => ?_
        obtain ⟨n, hn⟩ := Option.isSome_iff_exists.mp (hw c hc)
        exact (hebValue_bounds hn).2.2
      have henc : ∀ c ∈ w', encodeChar c = some ((hebValue c).getD 0) := by
        intro c hc
        obtain ⟨n, hn⟩ := Option.isSome_iff_exists.mp (hw c hc)
        rw [encodeChar, hn]
        rfl
      have hencoder :
          encoder_mot_hebreu w' =
            joinDots (w'.map fun c => natToDec ((hebValue c).getD 0)) := by
        rw [encoder_mot_hebreu, hstrip, filterMap_eq_map_of _ _ _ henc, List.map_map]
        rfl
      have hsplit :
          splitDots (joinDots (w'.map fun c => natToDec ((hebValue c).getD 0))) =
            w'.map fun c => natToDec ((hebValue c).getD 0) := by
        refine splitDots_joinDots _ (by simp [hw']) ?_
        intro t ht
        obtain ⟨c, _, hct⟩ := List.mem_map.mp ht
        rw [← hct]
        exact natToDec_no_dot
      have hdec : ∀ c ∈ w',
          decodeTok (natToDec ((hebValue c).getD 0)) = some (canonicalOf c) := by
        intro c hc
        obtain ⟨n, hn⟩ := Option.isSome_iff_exists.mp (hw c hc)
        obtain ⟨hb1, hb2, _⟩ := hebValue_bounds hn
        obtain ⟨hd, hs⟩ := decodeTok_natToDec hb1 hb2
        obtain ⟨x, hx⟩ := Option.isSome_iff_exists.mp hs
        rw [hn, Option.getD_some, hd, hx, canonicalOf, hn, Option.some_bind, hx]
        rfl
      rw [hencoder, decoder_sequence_hebreu, hsplit, List.filterMap_map]
      exact filterMap_eq_map_of _ _ _ hdec
  refine ⟨hmain, fun hfix => ?_⟩
  rw [hmain, List.map_congr_left hfix, List.map_id']

/-- C3 (counterexample): the claim `decode(encode(w)) = w` fails on the
word `שלום`, whose final letter `ם` comes back as the base form `מ`. -/
theorem C3_roundtrip_counterexample :
    decoder_sequence_hebreu (encoder_mot_hebreu ("שלום".data)) ≠ "שלום".data := by
  decide

/-- C3 witness: the amended round-trip applied to the concrete word `שלום`. -/
theorem C3_roundtrip_canonical_witness :
    decoder_sequence_hebreu (encoder_mot_hebreu ("שלום".data)) =
      ("שלום".data).map canonicalOf :=
  (C3_roundtrip_canonical ("שלום".data) (by decide)).1

/-- C4: the gematria summation is the sum over all characters of the Hebrew
table value, non-Hebrew characters (Latin letters included) contributing 0;
in particular the word `שלום` has value 21 + 12 + 6 + 13 = 52. -/
theorem C4_gematria_sum :
    (∀ mot : List Char,
        mot_vers_nombre mot = (mot.map fun c => (((hebValue c).getD 0 : Nat) : Int)).sum) ∧
      mot_vers_nombre ("שלום".data) = 52 := by
  constructor
  · intro mot
    rw [mot_vers_nombre, filterMap_pyStrip _ fun c hc => hebValue_space hc,
      foldl_intAdd, sum_filterMap_heb]
    simp
  · decide


/-! ### C5, C6: factorization and primality -/

theorem pullOut_prod (d : Nat) : ∀ n, (pullOut d n).1.prod * (pullOut d n).2 = n := by
  intro n
  induction n using Nat.strong_induction_on with
  | _ n ih =>
    rw [pullOut]
    split
    · next h =>
      have hlt : n / d < n := Nat.div_lt_self h.2.1 (by omega)
      show (d :: (pullOut d (n / d)).1).prod * (pullOut d (n / d)).2 = n
      rw [List.prod_cons, mul_assoc, ih _ hlt]
      exact Nat.mul_div_cancel' (Nat.dvd_of_mod_eq_zero h.2.2)
    · show List.prod [] * n = n
      rw [List.prod_nil, one_mul]

theorem pullOut_eq_d (d : Nat) : ∀ n, ∀ x ∈ (pullOut d n).1, x = d := by
  intro n
  induction n using Nat.strong_induction_on with
  | _ n ih =>
    rw [pullOut]
    split
    · next h =>
      have hlt : n / d < n := Nat.div_lt_self h.2.1 (by omega)
      intro x hx
      rcases List.mem_cons.mp hx with h' | h'
      · exact h'
      · exact ih _ hlt x h'
    · intro x hx
      exact absurd hx (List.not_mem_nil x)

theorem pullOut_pos (d : Nat) : ∀ n, 0 < n → 0 < (pullOut d n).2 := by
  intro n
  induction n using Nat.strong_induction_on with
  | _ n ih =>
    intro hpos
    rw [pullOut]
    split
    · next h =>
      have hlt : n / d < n := Nat.div_lt_self h.2.1 (by omega)
      exact ih _ hlt (Nat.div_pos (Nat.le_of_dvd hpos (Nat.dvd_of_mod_eq_zero h.2.2)) (by omega))
    · exact hpos

theorem pullOut_not_dvd (d : Nat) :
    ∀ n, 2 ≤ d → 0 < n → ¬d ∣ (pullOut d n).2 := by
  intro n
  induction n using Nat.strong_induction_on with
  | _ n ih =>
    intro hd2 hpos
    rw [pullOut]
    split
    · next h =>
      have hlt : n / d < n := Nat.div_lt_self h.2.1 (by omega)
      exact ih _ hlt hd2
        (Nat.div_pos (Nat.le_of_dvd hpos (Nat.dvd_of_mod_eq_zero h.2.2)) (by omega))
    · next h =>
      intro hdvd
      exact h ⟨hd2, hpos, Nat.mod_eq_zero_of_dvd hdvd⟩

theorem pullOut_snd_dvd (d n : Nat) : (pullOut d n).2 ∣ n :=
  Dvd.intro_left _ (pullOut_prod d n)

theorem pullOut_ne_nil_dvd {d n : Nat} (h : (pullOut d n).1 ≠ []) : d ∣ n := by
  rw [pullOut] at h
  split at h
  · next hg => exact Nat.dvd_of_mod_eq_zero hg.2.2
  · exact absurd rfl h

theorem sorted_const : ∀ (l : List Nat) (d : Nat), (∀ x ∈ l, x = d) →
    List.Sorted (fun a b : Nat => a ≤ b) l := by
  intro l
  induction l with
  | nil => intro d _; exact List.sorted_nil
  | cons a l ih =>
    intro d h
    rw [List.sorted_cons]
    refine ⟨fun b hb => ?_, ih d fun x hx => h x (List.mem_cons_of_mem a hx)⟩
    rw [h a (List.mem_cons_self a l), h b (List.mem_cons_of_mem a hb)]

theorem factorAux_spec :
    ∀ n d : Nat, 0 < n → 2 ≤ d → (∀ k, 2 ≤ k → k < d → ¬k ∣ n) →
      (factorAux n d).prod = n ∧
        (∀ p ∈ factorAux n d, Nat.Prime p ∧ d ≤ p) ∧
        List.Sorted (fun a b : Nat => a ≤ b) (factorAux n d) := by
  intro n d
  induction n, d using factorAux.induct with
  | case1 n d h ih =>
    intro hpos hd2 hnd
    have hmn : (pullOut d n).2 ∣ n := pullOut_snd_dvd d n
    have hmpos : 0 < (pullOut d n).2 := pullOut_pos d n hpos
    have hmk : ∀ k, 2 ≤ k → k < d + 1 → ¬k ∣ (pullOut d n).2 := by
      intro k hk2 hkd hkm
      rcases Nat.lt_or_ge k d with hlt | hge
      · exact hnd k hk2 hlt (hkm.trans hmn)
      · have hkd' : k = d := by omega
        subst hkd'
        exact pullOut_not_dvd k n hk2 hpos hkm
    obtain ⟨ihprod, ihmem, ihsort⟩ := ih hmpos (by omega) hmk
    have hfa : factorAux n d = (pullOut d n).1 ++ factorAux (pullOut d n).2 (d + 1) := by
      rw [factorAux, dif_pos h]
    refine ⟨?_, ?_, ?_⟩
    · rw [hfa, List.prod_append, ihprod, pullOut_prod]
    · intro p hp
      rw [hfa] at hp
      rcases List.mem_append.mp hp with hL | hF
      · have hpd : p = d := pullOut_eq_d d n p hL
        subst hpd
        have hdn : p ∣ n := pullOut_ne_nil_dvd (List.ne_nil_of_mem hL)
        refine ⟨Nat.prime_def_lt'.mpr ⟨hd2, fun m hm2 hmp hmd => ?_⟩, Nat.le_refl p⟩
        exact hnd m hm2 hmp (hmd.trans hdn)
      · obtain ⟨hp1, hp2⟩ := ihmem p hF
        exact ⟨hp1, by omega⟩
    · rw [hfa, List.Sorted, List.pairwise_append]
      refine ⟨sorted_const _ d (pullOut_eq_d d n), ihsort, fun x hx y hy => ?_⟩
      have hx' : x = d := pullOut_eq_d d n x hx
      have hy' : d + 1 ≤ y := (ihmem y hy).2
      omega
  | case2 n d h h1 =>
    intro hpos hd2 hnd
    have hfa : factorAux n d = [n] := by
      rw [factorAux, dif_neg h, if_pos h1]
    have hprime : Nat.Prime n := by
      refine Nat.prime_def_le_sqrt.mpr ⟨h1, fun m hm2 hms hmd => ?_⟩
      have hmm : m * m ≤ n := Nat.le_sqrt.mp hms
      rcases Nat.lt_or_ge m d with hlt | hge
      · exact hnd m hm2 hlt hmd
      · exact h (Nat.le_trans (Nat.mul_le_mul hge hge) hmm)
    have hdn : d ≤ n := by
      by_contra hcon
      exact hnd n h1 (by omega) (Nat.dvd_refl n)
    refine ⟨by rw [hfa, List.prod_singleton], fun p hp => ?_, by
      rw [hfa]; exact List.sorted_singleton n⟩
    rw [hfa, List.mem_singleton] at hp
    subst hp
    exact ⟨hprime, hdn⟩
  | case3 n d h h1 =>
    intro hpos hd2 hnd
    have hn1 : n = 1 := by omega
    have hfa : factorAux n d = [] := by
      rw [factorAux, dif_neg h, if_neg h1]
    refine ⟨by rw [hfa, List.prod_nil, hn1], fun p hp => ?_, by
      rw [hfa]; exact List.sorted_nil⟩
    rw [hfa] at hp
    exact absurd hp (List.not_mem_nil p)

theorem prod_map_intOfNat :
    ∀ l : List Nat, (l.map Int.ofNat).prod = Int.ofNat l.prod := by
  intro l
  induction l with
  | nil => rfl
  | cons a l ih =>
    rw [List.map_cons, List.prod_cons, List.prod_cons, ih]
    rfl

/-- C5: for `n < 2` (0, 1 and negatives included) `factorize` returns the
degenerate list `[n]`; for `n ≥ 2` it returns a nondecreasing list of prime
factors whose product is `n`; in particular `factorize 52 = [2, 2, 13]` and
`factorize 0 = [0]`. -/
theorem C5_factorize_spec :
    (∀ n : Int, n < 2 → factorize n = [n]) ∧
      (∀ n : Int, 2 ≤ n →
        List.Sorted (fun a b : Int => a ≤ b) (factorize n) ∧
          (∀ p ∈ factorize n, Nat.Prime p.toNat) ∧
          (factorize n).prod = n) ∧
      factorize 52 = [2, 2, 13] ∧ factorize 0 = [0] := by
  refine ⟨fun n h => by rw [factorize, if_pos h], fun n hn => ?_, ?_, ?_⟩
  · have h2 : ¬n < 2 := by omega
    have hN : 0 < n.toNat := by omega
    obtain ⟨hprod, hmem, hsort⟩ :=
      factorAux_spec n.toNat 2 hN (Nat.le_refl 2) (fun k hk2 hk2' => by omega)
    rw [factorize, if_neg h2]
    refine ⟨?_, ?_, ?_⟩
    · rw [List.Sorted, List.pairwise_map]
      exact hsort.imp fun hab => Int.ofNat_le.mpr hab
    · intro p hp
      obtain ⟨q, hq, hq'⟩ := List.mem_map.mp hp
      rw [← hq']
      simpa using (hmem q hq).1
    · rw [prod_map_intOfNat, hprod]
      exact Int.toNat_of_nonneg (by omega)
  · simp [factorize, factorAux, pullOut]
  · rfl

/-- C5 witness: the degenerate branch at `-7` and the product property of
the trial division at 52. -/
theorem C5_factorize_spec_witness :
    factorize (-7) = [-7] ∧ (factorize 52).prod = 52 :=
  ⟨C5_factorize_spec.1 (-7) (by decide), (C5_factorize_spec.2.1 52 (by decide)).2.2⟩


theorem is_prime_iff_no_divisor (n : Int) (hn : 2 ≤ n) :
    (is_prime n = true) ↔ ∀ i : Nat, 2 ≤ i → i ≤ Nat.sqrt n.toNat → ¬i ∣ n.toNat := by
  have h2 : ¬n < 2 := by omega
  rw [is_prime, if_neg h2, List.all_eq_true]
  constructor
  · intro hall i hi2 his hidvd
    have hmem : i ∈ List.range' 2 (Nat.sqrt n.toNat + 1 - 2) := by
      rw [List.mem_range'_1]
      omega
    have hi := hall i hmem
    simp only [bne_iff_ne, ne_eq] at hi
    exact hi (Nat.mod_eq_zero_of_dvd hidvd)
  · intro hall i hmem
    rw [List.mem_range'_1] at hmem
    simp only [bne_iff_ne, ne_eq]
    intro hmod
    exact hall i hmem.1 (by omega) (Nat.dvd_of_mod_eq_zero hmod)

/-- C6: `is_prime` rejects every `n < 2`, and for `n ≥ 2` it answers true
exactly when no integer in `[2, floor(sqrt(n))]` divides `n`, equivalently
exactly when `n` is prime; in particular `is_prime 52 = false`. -/
theorem C6_is_prime_spec :
    (∀ n : Int, n < 2 → is_prime n = false) ∧
      (∀ n : Int, 2 ≤ n →
        ((is_prime n = true) ↔ ∀ i : Nat, 2 ≤ i → i ≤ Nat.sqrt n.toNat → ¬i ∣ n.toNat) ∧
          ((is_prime n = true) ↔ Nat.Prime n.toNat)) ∧
      is_prime 52 = false := by
  refine ⟨fun n h => by rw [is_prime, if_pos h], fun n hn => ?_, ?_⟩
  · refine ⟨is_prime_iff_no_divisor n hn, (is_prime_iff_no_divisor n hn).trans ?_⟩
    constructor
    · intro hall
      exact Nat.prime_def_le_sqrt.mpr ⟨by omega, hall⟩
    · intro hp
      exact (Nat.prime_def_le_sqrt.mp hp).2
  · rw [Bool.eq_false_iff]
    intro htrue
    have h4 : (2 : Nat) ≤ Nat.sqrt (52 : Int).toNat := Nat.le_sqrt.mpr (by decide)
    exact (is_prime_iff_no_divisor 52 (by decide)).mp htrue 2 (by decide) h4 (by decide)

/-- C6 witness: the small-`n` branch at `-3` and the primality equivalence
instantiated at 13. -/
theorem C6_is_prime_spec_witness :
    is_prime (-3) = false ∧ (is_prime 13 = true ↔ Nat.Prime (13 : Int).toNat) :=
  ⟨C6_is_prime_spec.1 (-3) (by decide), (C6_is_prime_spec.2.1 13 (by decide)).2⟩

/-! ### C7, C8: palindrome and unique letters -/

theorem hebFilter_strip (mot : List Char) :
    (pyStrip mot).filter (fun c => (hebValue c).isSome) =
      mot.filter fun c => (hebValue c).isSome :=
  filter_pyStrip _ (fun c hc => by rw [hebValue_space hc]; rfl) mot

/-- C7: the palindrome test keeps only the Hebrew-mapped characters of the
word and answers true exactly when that filtered string equals its reverse;
`אא` passes, and a word with no Hebrew letter passes vacuously. -/
theorem C7_palindrome_spec :
    (∀ mot : List Char,
        (est_palindrome_hebreu mot = true ↔
          (mot.filter fun c => (hebValue c).isSome) =
            (mot.filter fun c => (hebValue c).isSome).reverse)) ∧
      est_palindrome_hebreu ("אא".data) = true ∧
      (∀ mot : List Char, (∀ c ∈ mot, hebValue c = none) →
        est_palindrome_hebreu mot = true) := by
  refine ⟨fun mot => ?_, by decide, fun mot hnone => ?_⟩
  · rw [est_palindrome_hebreu]
    simp only [hebFilter_strip]
    exact beq_iff_eq
  · have hnil : mot.filter (fun c => (hebValue c).isSome) = [] := by
      rw [List.filter_eq_nil_iff]
      intro a ha
      rw [hnone a ha]
      simp
    rw [est_palindrome_hebreu]
    simp only [hebFilter_strip, hnil]
    rfl

/-- C7 witness: the vacuous case applied to the Hebrew-free word `xy`. -/
theorem C7_palindrome_spec_witness : est_palindrome_hebreu ("xy".data) = true :=
  C7_palindrome_spec.2.2 ("xy".data) (by decide)

/-- C8: the unique-letter listing contains exactly the distinct
Hebrew-mapped characters of the word, each once, arranged in nondecreasing
order of their numeric values (not in order of first appearance). -/
theorem C8_lettres_uniques_spec (mot : List Char) :
    (∀ c : Char, c ∈ lettres_uniques_hebreu mot ↔ c ∈ mot ∧ (hebValue c).isSome = true) ∧
      (lettres_uniques_hebreu mot).Nodup ∧
      ((lettres_uniques_hebreu mot).map hebKey).Sorted (fun a b : Nat => a ≤ b) := by
  refine ⟨fun c => ?_, ?_, ?_⟩
  · simp [lettres_uniques_hebreu, List.mem_dedup, List.mem_filter]
  · exact ((List.perm_insertionSort hebLe _).nodup_iff).mpr (List.nodup_dedup _)
  · rw [List.Sorted, List.pairwise_map]
    exact List.sorted_insertionSort hebLe _

/-! ### C9, C10: pipeline invariants and CLI routing -/

/-- C9: the gematria value handed by `analyser_mot_hebreu` to
`analyser_nombre` is always non-negative, so the NaN square-root branch is
never taken and no minus sign ever appears in the decimal string used for
the digit statistics and digests. -/
theorem C9_pipeline_nonneg (mot : List Char) :
    0 ≤ mot_vers_nombre mot ∧
      square_root_is_nan (mot_vers_nombre mot) = false ∧
      '-' ∉ intToStr (mot_vers_nombre mot) := by
  have h0 : 0 ≤ mot_vers_nombre mot := by
    rw [mot_vers_nombre, foldl_intAdd]
    have hx : ∀ x ∈ (((pyStrip mot).filterMap hebValue).map fun n : Nat => (n : Int)),
        0 ≤ x := by
      intro x hx
      obtain ⟨k, _, hk⟩ := List.mem_map.mp hx
      omega
    simpa using List.sum_nonneg hx
  refine ⟨h0, by rw [square_root_is_nan, if_pos h0], ?_⟩
  rw [intToStr, if_neg (by omega)]
  intro hmem
  have hd := natToDec_digits '-' hmem
  simp at hd

/-- C10: `main` routes its (stripped) argument to the decoder exactly when
it contains a dot and every dot-separated token is all digits; the dotless
all-digit argument `52` is therefore analysed as a literal word, whose
gematria value is 0. -/
theorem C10_main_routing :
    (∀ arg : List Char,
        mainRoutesToDecoder arg = true ↔
          ('.' ∈ pyStrip arg ∧ ∀ t ∈ splitDots (pyStrip arg), pyIsDigitTok t = true)) ∧
      mainRoutesToDecoder ("52".data) = false ∧ mot_vers_nombre ("52".data) = 0 := by
  refine ⟨fun arg => ?_, by decide, by decide⟩
  rw [mainRoutesToDecoder]
  simp [List.all_eq_true]


/-! ### Instantiated witnesses -/

/-- C1 witness: the tokenwise description instantiated at `21.3`. -/
theorem C1_decoder_tokenwise_witness :
    decoder_sequence_hebreu ("21.3".data) =
      ((splitDots ("21.3".data)).map decodeTokenClaim).join :=
  C1_decoder_tokenwise ("21.3".data)

/-- C2 witness: a word with no encodable letter encodes to the empty
string. -/
theorem C2_encoder_spec_witness : encoder_mot_hebreu ("!?".data) = [] :=
  (C2_encoder_spec ("!?".data)).2 (by decide)

/-- C4 witness: the gematria of `שלום` is 52. -/
theorem C4_gematria_sum_witness : mot_vers_nombre ("שלום".data) = 52 :=
  C4_gematria_sum.2

/-- C8 witness: the unique letters of `שלום` are pairwise distinct. -/
theorem C8_lettres_uniques_spec_witness :
    (lettres_uniques_hebreu ("שלום".data)).Nodup :=
  (C8_lettres_uniques_spec ("שלום".data)).2.1

/-- C9 witness: the gematria value of `אבג` is non-negative. -/
theorem C9_pipeline_nonneg_witness : 0 ≤ mot_vers_nombre ("אבג".data) :=
  (C9_pipeline_nonneg ("אבג".data)).1

/-- C10 witness: the dotless all-digit argument `52` is not routed to the
decoder. -/
theorem C10_main_routing_witness : mainRoutesToDecoder ("52".data) = false :=
  C10_main_routing.2.1

end Truth
